import Mathlib

/-!
Formal model of the `Line` message-area widget (src/tui/msg_area/line.rs).

A `Line` stores a raw character buffer (characters are modelled as `Nat`
Unicode code points), a visible-character count (`i32`, modelled as `Int`)
and a list of split positions (`Vec<i32>`, modelled as `List Int`).
Machine `u16` values (the `fg`/`bg` styles) are modelled as `Nat` with
explicit reduction modulo 2^16 where the Rust arithmetic can wrap, and the
`i8` result of `to_dec` is modelled by its 8-bit two's-complement bit
pattern, sign-extended explicitly where Rust casts it to `u16`.

Fallible operations (Rust panics: `unwrap` on a missing character,
`assert!` failures) are modelled with `Option`, or with an explicit
success flag when the side effects performed before the panic matter
(cell writes of `draw_from`).
-/

namespace TinyLine

/-- Modelled from the spec: the foreground/background color directive marker
character (`style::COLOR_PREFIX` of the repository's style module, which is
not part of the sources at hand); the spec's wire format (section 6) marks
color directives with a dedicated control character, taken here to be the
IRC color code 0x03. -/
def colorMarker : Nat := 3

/-- Modelled from the spec: the native-palette color directive marker
(`style::TERMBOX_COLOR_PREFIX`), a control character distinct from the
other markers, taken here to be 0x00. -/
def termboxMarker : Nat := 0

/-- Modelled from the spec: the bold directive marker (`style::BOLD_PREFIX`),
taken here to be the IRC bold code 0x02. -/
def boldMarker : Nat := 2

/-- Modelled from the spec: the reset directive marker
(`style::RESET_PREFIX`), taken here to be the IRC reset code 0x0F. -/
def resetMarker : Nat := 15

/-- Modelled from the spec: the bold attribute bit that the bold directive
ORs into the foreground (`termbox_sys::TB_BOLD`, 0x0100). -/
def tbBold : Nat := 256

/-- Code point of the comma character, the separator of the two-digit
background code in a color directive. -/
def commaChar : Nat := 44

/-- Rust's `char::is_whitespace`: the Unicode `White_Space` property,
spelled out on code points. -/
def isWhitespace (c : Nat) : Bool :=
  (9 ≤ c && c ≤ 13) || c == 32 || c == 133 || c == 160 || c == 5760 ||
  (8192 ≤ c && c ≤ 8202) || c == 8232 || c == 8233 || c == 8239 ||
  c == 8287 || c == 12288

/-- Model of `to_dec` (line.rs): `((ch as u32) - ('0' as u32)) as i8`.
The wrapping `u32` subtraction followed by truncation to 8 bits gives the
bit pattern of the resulting `i8`, returned as a `Nat` below 256. -/
def to_dec (ch : Nat) : Nat :=
  ((ch + 2 ^ 32 - 48) % 2 ^ 32) % 256

/-- Sign extension of an `i8` bit pattern to a `u16` bit pattern: Rust's
`as u16` cast applied to the `i8` returned by `to_dec`. -/
def i8_as_u16 (b : Nat) : Nat :=
  if b < 128 then b else 65280 + b

/-- Model of `irc_color_to_termbox` (line.rs): the 0-15 palette table;
anything else passes through unchanged. -/
def irc_color_to_termbox (c : Nat) : Nat :=
  match c with
  | 0 => 15
  | 1 => 0
  | 2 => 17
  | 3 => 2
  | 4 => 9
  | 5 => 88
  | 6 => 5
  | 7 => 130
  | 8 => 11
  | 9 => 10
  | 10 => 6
  | 11 => 14
  | 12 => 12
  | 13 => 13
  | 14 => 8
  | 15 => 7
  | _ => c

/-- The decoded `u16` color value of a two-character color operand pair:
`to_dec d1 as u16 * 10 + to_dec d2 as u16`, with the `u16` arithmetic
reduced modulo 2^16 as in Rust release mode. -/
def decodeColor (d1 d2 : Nat) : Nat :=
  (i8_as_u16 (to_dec d1) * 10 + i8_as_u16 (to_dec d2)) % 65536

/-- The `Line` data model (line.rs): raw buffer, visible-character count
and whitespace split positions. -/
structure Line where
  str : List Nat
  len_chars : Int
  splits : List Int
deriving DecidableEq, Repr

/-- Model of `Line::new`. -/
def Line.new : Line :=
  { str := [], len_chars := 0, splits := [] }

/-- Push characters into the buffer without touching `len_chars` or
`splits` (the directive-copying pushes of `add_text`). -/
def pushRaw (l : Line) (cs : List Nat) : Line :=
  { l with str := l.str ++ cs }

/-- Push one visible character: append to the buffer, record a split
position if it is whitespace (at the pre-increment `len_chars`), and
increment `len_chars` — the common bookkeeping of `add_text`'s visible
branch and of `add_char`. -/
def pushVis (l : Line) (c : Nat) : Line :=
  { str := l.str ++ [c],
    len_chars := l.len_chars + 1,
    splits := if isWhitespace c then l.splits ++ [l.len_chars] else l.splits }

mutual
/-- Model of `Line::add_text` (line.rs, lines 40-87). `none` models an
`unwrap` panic on a directive truncated where an operand character is
expected. The branch where the character after a color directive's two
digits is not a comma re-processes that character through the non-color
branches only (`add_other`), exactly as the Rust control flow does: the
re-processed character is never re-checked against the color marker. -/
def add_text (l : Line) (s : List Nat) : Option Line :=
  match s with
  | [] => some l
  | c :: rest =>
    if c = colorMarker then
      match rest with
      | d1 :: d2 :: rest2 =>
        match rest2 with
        | [] => some (pushRaw l [c, d1, d2])
        | mb :: rest3 =>
          if mb = commaChar then
            match rest3 with
            | b1 :: b2 :: rest4 =>
              add_text (pushRaw (pushRaw l [c, d1, d2]) [mb, b1, b2]) rest4
            | _ => none
          else
            add_other (pushRaw l [c, d1, d2]) mb rest3
      | _ => none
    else
      add_other l c rest
termination_by (s.length, 1)

/-- The non-color branches of the `add_text` scan loop, applied to one
character and the remaining input. -/
def add_other (l : Line) (c : Nat) (rest : List Nat) : Option Line :=
  if c = termboxMarker then
    match rest with
    | f :: b :: rest2 => add_text (pushRaw l [c, f, b]) rest2
    | _ => none
  else if c = resetMarker ∨ c = boldMarker then
    add_text (pushRaw l [c]) rest
  else if 7 < c then
    add_text (pushVis l c) rest
  else
    add_text l rest
termination_by (rest.length + 1, 0)
end

/-- Model of `Line::add_char` (line.rs, lines 89-96): the `assert!` that
the character is not the color marker is modelled by `none`. -/
def add_char (l : Line) (c : Nat) : Option Line :=
  if c = colorMarker then none else some (pushVis l c)

/-- The loop body of `Line::rendered_height` (line.rs, lines 104-134),
walking the split list with the running `lines` count and `line_start`
offset; the lookahead split defaults to `len_chars`. -/
def rh_go (len_chars width : Int) : List Int → Int → Int → Int
  | [], lines, _ => lines
  | s :: rest, lines, line_start =>
    let next := rest.headD len_chars
    if next - 1 - s > width - (s - line_start + 1) then
      rh_go len_chars width rest (lines + 1) (s + 1)
    else
      rh_go len_chars width rest lines line_start

/-- Model of `Line::rendered_height`. -/
def rendered_height (l : Line) (width : Int) : Int :=
  rh_go l.len_chars width l.splits 1 0

/-- One cell write performed through `tb_change_cell`. -/
structure Cell where
  x : Int
  y : Int
  ch : Nat
  fg : Nat
  bg : Nat
deriving DecidableEq, Repr

mutual
/-- The scan loop of `Line::draw_from` (line.rs, lines 141-234), over the
stored buffer with the running column, line, split cursor, visible index
and style state. The returned flag is `false` when the Rust code panics
(`unwrap` on a missing operand character, or the `assert!` that the next
split position exceeds the current visible index); the cell list holds the
writes performed up to that point. As in `add_text`, the character after a
color directive's two digits, when it is not a comma, is re-processed
through the non-color branches only. -/
def draw_go (sp : List Int) (len px py fl w : Int) (s : List Nat)
    (col line : Int) (nsi : Nat) (ci : Int) (fg bg : Nat) :
    List Cell × Bool :=
  match s with
  | [] => ([], true)
  | c :: rest =>
    if c = colorMarker then
      match rest with
      | d1 :: d2 :: rest2 =>
        let fg' := fg ||| irc_color_to_termbox (decodeColor d1 d2)
        match rest2 with
        | [] => ([], true)
        | ch :: rest3 =>
          if ch = commaChar then
            match rest3 with
            | b1 :: b2 :: rest4 =>
              draw_go sp len px py fl w rest4 col line nsi ci fg'
                (irc_color_to_termbox (decodeColor b1 b2))
            | _ => ([], false)
          else
            draw_other sp len px py fl w ch rest3 col line nsi ci fg' 0
      | _ => ([], false)
    else
      draw_other sp len px py fl w c rest col line nsi ci fg bg
termination_by (s.length, 1)

/-- The non-color branches of the `draw_from` scan loop, applied to one
character and the remaining buffer. -/
def draw_other (sp : List Int) (len px py fl w : Int) (c : Nat)
    (rest : List Nat) (col line : Int) (nsi : Nat) (ci : Int) (fg bg : Nat) :
    List Cell × Bool :=
  if c = termboxMarker then
    match rest with
    | f :: b :: rest2 =>
      draw_go sp len px py fl w rest2 col line nsi ci (f % 65536) (b % 65536)
    | _ => ([], false)
  else if c = boldMarker then
    draw_go sp len px py fl w rest col line nsi ci (fg ||| tbBold) bg
  else if c = resetMarker then
    draw_go sp len px py fl w rest col line nsi ci 0 0
  else if isWhitespace c then
    let nsi' := nsi + 1
    let next := sp.getD nsi' len
    if next ≤ ci then ([], false)
    else if next - ci ≤ w - (col - px) then
      let r := draw_go sp len px py fl w rest (col + 1) line nsi' (ci + 1)
        fg bg
      ((if fl ≤ line then [⟨col, py + line, c, fg, bg⟩] else []) ++ r.1, r.2)
    else
      draw_go sp len px py fl w rest px (line + 1) nsi' (ci + 1) fg bg
  else
    if col - px < w then
      let r := draw_go sp len px py fl w rest (col + 1) line nsi (ci + 1)
        fg bg
      ((if fl ≤ line then [⟨col, py + line, c, fg, bg⟩] else []) ++ r.1, r.2)
    else
      draw_go sp len px py fl w rest col line nsi (ci + 1) fg bg
termination_by (rest.length + 1, 0)
end

/-- Model of `Line::draw_from`: the scan starts at column `pos_x`, line 0,
split cursor 0, visible index 0 and zeroed styles. -/
def draw_from (l : Line) (px py fl w : Int) : List Cell × Bool :=
  draw_go l.splits l.len_chars px py fl w l.str px 0 0 0 0 0

mutual
/-- The sequence of characters of a stored buffer that the `draw_from` scan
treats as visible (the characters reaching its whitespace or default
branches), following exactly the directive-consumption structure of
`draw_go`; `none` when the scan would panic on a truncated directive. -/
def parseVis (s : List Nat) : Option (List Nat) :=
  match s with
  | [] => some []
  | c :: rest =>
    if c = colorMarker then
      match rest with
      | _ :: _ :: rest2 =>
        match rest2 with
        | [] => some []
        | ch :: rest3 =>
          if ch = commaChar then
            match rest3 with
            | _ :: _ :: rest4 => parseVis rest4
            | _ => none
          else
            parseOther ch rest3
      | _ => none
    else
      parseOther c rest
termination_by (s.length, 1)

/-- The non-color branches of the visible-character scan. -/
def parseOther (c : Nat) (rest : List Nat) : Option (List Nat) :=
  if c = termboxMarker then
    match rest with
    | _ :: _ :: rest2 => parseVis rest2
    | _ => none
  else if c = boldMarker then parseVis rest
  else if c = resetMarker then parseVis rest
  else (parseVis rest).map (c :: ·)
termination_by (rest.length + 1, 0)
end

/-- Whitespace positions of a visible-character sequence, indexed from a
given starting offset. -/
def wsIdx : List Nat → Int → List Int
  | [], _ => []
  | c :: cs, i =>
    if isWhitespace c then i :: wsIdx cs (i + 1) else wsIdx cs (i + 1)

/-- The data-model invariant of section 3 of the design: the stored buffer
parses without truncation, `len_chars` counts exactly its visible
(non-directive) characters, and `splits` lists exactly the whitespace
positions among them, in visible-character coordinates. -/
def wfLine (l : Line) : Bool :=
  match parseVis l.str with
  | some vs => l.len_chars == (vs.length : Int) && l.splits == wsIdx vs 0
  | none => false

/-- Lines reachable from `Line::new` by append operations that completed
without a panic (an `add_text` call that hit no truncation `unwrap`, an
`add_char` call whose argument satisfied the asserted precondition). -/
inductive Reach : Line → Prop where
  | new : Reach Line.new
  | text {l s l'} : Reach l → add_text l s = some l' → Reach l'
  | char {l c l'} : Reach l → add_char l c = some l' → Reach l'

/-- A complete style directive unit, as stored in the buffer: a color
directive with its comma-separated background part, a native-palette
directive, a bold directive or a reset directive. -/
inductive StyleDir where
  | color (d1 d2 b1 b2 : Nat) : StyleDir
  | native (f b : Nat) : StyleDir
  | bold : StyleDir
  | reset : StyleDir
deriving DecidableEq, Repr

/-- Wire encoding of a complete style directive unit (section 6 table). -/
def encodeDir : StyleDir → List Nat
  | .color d1 d2 b1 b2 => [colorMarker, d1, d2, commaChar, b1, b2]
  | .native f b => [termboxMarker, f, b]
  | .bold => [boldMarker]
  | .reset => [resetMarker]

/-- Wire encoding of a sequence of complete style directive units. -/
def encodeDirs (ds : List StyleDir) : List Nat :=
  (ds.map encodeDir).flatten

/-- The style-state transition of one directive unit, matching the
assignments performed by `draw_from`: the color directive ORs the
palette-mapped foreground into `fg` and sets `bg`; the native directive
sets both from the raw codes truncated to `u16`; bold ORs the bold bit
into `fg`; reset zeroes both. -/
def applyDir (st : Nat × Nat) : StyleDir → Nat × Nat
  | .color d1 d2 b1 b2 =>
      (st.1 ||| irc_color_to_termbox (decodeColor d1 d2),
       irc_color_to_termbox (decodeColor b1 b2))
  | .native f b => (f % 65536, b % 65536)
  | .bold => (st.1 ||| tbBold, st.2)
  | .reset => (0, 0)

/-- Folded style state after a sequence of directive units. -/
def applyDirs (st : Nat × Nat) (ds : List StyleDir) : Nat × Nat :=
  ds.foldl applyDir st

/-- The characters that `add_text` stores when no color or native marker is
involved: reset and bold markers, and everything above the control
threshold 0x07. -/
def storedChar (c : Nat) : Bool :=
  c == resetMarker || c == boldMarker || decide (7 < c)

/-- The characters that `add_text` counts in `len_chars` when no color or
native marker is involved: everything above 0x07 that is not a reset or
bold marker. -/
def countedChar (c : Nat) : Bool :=
  decide (7 < c) && c != resetMarker && c != boldMarker

/-- The split-list part of the data-model invariant of section 3: split
positions are strictly increasing, nonnegative and strictly below
`visible_length`. -/
def SplitsInv (l : Line) : Prop :=
  List.Pairwise (· < ·) l.splits ∧
    (∀ v ∈ l.splits, 0 ≤ v ∧ v < l.len_chars) ∧ 0 ≤ l.len_chars

/-! ## Basic lemmas -/

theorem getD_drop_headD (sp : List Int) (n : Nat) (d : Int) :
    sp.getD n d = (sp.drop n).headD d := by
  induction sp generalizing n with
  | nil => cases n <;> rfl
  | cons s rest ih =>
    cases n with
    | zero => rfl
    | succ m => simp only [List.getD_cons_succ, List.drop_succ_cons]; exact ih m

theorem rh_go_ge (len w : Int) :
    ∀ (sp : List Int) (L ls : Int), L ≤ rh_go len w sp L ls := by
  intro sp
  induction sp with
  | nil => intro L ls; simp [rh_go]
  | cons s rest ih =>
    intro L ls
    rw [rh_go]
    split
    · exact le_trans (by omega) (ih (L + 1) (s + 1))
    · exact ih L ls

theorem wsIdx_head_ge :
    ∀ (vs : List Nat) (i x : Int) (r : List Int),
      wsIdx vs i = x :: r → i ≤ x := by
  intro vs
  induction vs with
  | nil => intro i x r h; simp [wsIdx] at h
  | cons c cs ih =>
    intro i x r h
    rw [wsIdx] at h
    split at h
    · injection h with h1 h2
      omega
    · exact le_trans (by omega) (ih (i + 1) x r h)

/-! ## Unfold lemmas for the scan loops -/

set_option maxHeartbeats 3200000

theorem draw_go_eq_nil (sp : List Int) (len px py fl w col line : Int)
    (nsi : Nat) (ci : Int) (fg bg : Nat) :
    draw_go sp len px py fl w [] col line nsi ci fg bg = ([], true) := by
  rw [draw_go]

theorem draw_go_eq_color_end (sp : List Int) (len px py fl w col line : Int)
    (nsi : Nat) (ci : Int) (fg bg d1 d2 : Nat) :
    draw_go sp len px py fl w [colorMarker, d1, d2] col line nsi ci fg bg =
      ([], true) := by
  rw [draw_go.eq_def]
  dsimp only
  rw [if_pos rfl]

theorem draw_go_eq_color_comma (sp : List Int) (len px py fl w col line : Int)
    (nsi : Nat) (ci : Int) (fg bg d1 d2 b1 b2 : Nat) (rest : List Nat) :
    draw_go sp len px py fl w
      (colorMarker :: d1 :: d2 :: commaChar :: b1 :: b2 :: rest)
      col line nsi ci fg bg =
    draw_go sp len px py fl w rest col line nsi ci
      (fg ||| irc_color_to_termbox (decodeColor d1 d2))
      (irc_color_to_termbox (decodeColor b1 b2)) := by
  rw [draw_go.eq_def]
  dsimp only
  rw [if_pos rfl, if_pos rfl]

theorem draw_go_eq_color_comma_panic0 (sp : List Int)
    (len px py fl w col line : Int) (nsi : Nat) (ci : Int) (fg bg d1 d2 : Nat) :
    draw_go sp len px py fl w (colorMarker :: d1 :: d2 :: commaChar :: [])
      col line nsi ci fg bg = ([], false) := by
  rw [draw_go.eq_def]
  dsimp only
  rw [if_pos rfl, if_pos rfl]

theorem draw_go_eq_color_comma_panic1 (sp : List Int)
    (len px py fl w col line : Int) (nsi : Nat) (ci : Int)
    (fg bg d1 d2 b1 : Nat) :
    draw_go sp len px py fl w (colorMarker :: d1 :: d2 :: commaChar :: [b1])
      col line nsi ci fg bg = ([], false) := by
  rw [draw_go.eq_def]
  dsimp only
  rw [if_pos rfl, if_pos rfl]

theorem draw_go_eq_color_other (sp : List Int) (len px py fl w col line : Int)
    (nsi : Nat) (ci : Int) (fg bg d1 d2 mb : Nat) (rest : List Nat)
    (h : ¬mb = commaChar) :
    draw_go sp len px py fl w (colorMarker :: d1 :: d2 :: mb :: rest)
      col line nsi ci fg bg =
    draw_other sp len px py fl w mb rest col line nsi ci
      (fg ||| irc_color_to_termbox (decodeColor d1 d2)) 0 := by
  rw [draw_go.eq_def]
  dsimp only
  rw [if_pos rfl, if_neg h]

theorem draw_go_eq_color_panic0 (sp : List Int) (len px py fl w col line : Int)
    (nsi : Nat) (ci : Int) (fg bg : Nat) :
    draw_go sp len px py fl w [colorMarker] col line nsi ci fg bg =
      ([], false) := by
  rw [draw_go.eq_def]
  dsimp only
  rw [if_pos rfl]

theorem draw_go_eq_color_panic1 (sp : List Int) (len px py fl w col line : Int)
    (nsi : Nat) (ci : Int) (fg bg d1 : Nat) :
    draw_go sp len px py fl w [colorMarker, d1] col line nsi ci fg bg =
      ([], false) := by
  rw [draw_go.eq_def]
  dsimp only
  rw [if_pos rfl]

theorem draw_go_eq_other (sp : List Int) (len px py fl w col line : Int)
    (nsi : Nat) (ci : Int) (fg bg c : Nat) (rest : List Nat)
    (h : ¬c = colorMarker) :
    draw_go sp len px py fl w (c :: rest) col line nsi ci fg bg =
    draw_other sp len px py fl w c rest col line nsi ci fg bg := by
  rw [draw_go.eq_def]
  dsimp only
  rw [if_neg h]

theorem draw_other_eq_termbox (sp : List Int) (len px py fl w col line : Int)
    (nsi : Nat) (ci : Int) (fg bg f b : Nat) (rest : List Nat) :
    draw_other sp len px py fl w termboxMarker (f :: b :: rest)
      col line nsi ci fg bg =
    draw_go sp len px py fl w rest col line nsi ci (f % 65536) (b % 65536) := by
  rw [draw_other.eq_def]
  dsimp only
  rw [if_pos rfl]

theorem draw_other_eq_termbox_panic0 (sp : List Int)
    (len px py fl w col line : Int) (nsi : Nat) (ci : Int) (fg bg : Nat) :
    draw_other sp len px py fl w termboxMarker [] col line nsi ci fg bg =
      ([], false) := by
  rw [draw_other.eq_def]
  dsimp only
  rw [if_pos rfl]

theorem draw_other_eq_termbox_panic1 (sp : List Int)
    (len px py fl w col line : Int) (nsi : Nat) (ci : Int) (fg bg f : Nat) :
    draw_other sp len px py fl w termboxMarker [f] col line nsi ci fg bg =
      ([], false) := by
  rw [draw_other.eq_def]
  dsimp only
  rw [if_pos rfl]

theorem draw_other_eq_bold (sp : List Int) (len px py fl w col line : Int)
    (nsi : Nat) (ci : Int) (fg bg : Nat) (rest : List Nat) :
    draw_other sp len px py fl w boldMarker rest col line nsi ci fg bg =
    draw_go sp len px py fl w rest col line nsi ci (fg ||| tbBold) bg := by
  rw [draw_other.eq_def]
  dsimp only
  rw [if_neg (by decide), if_pos rfl]

theorem draw_other_eq_reset (sp : List Int) (len px py fl w col line : Int)
    (nsi : Nat) (ci : Int) (fg bg : Nat) (rest : List Nat) :
    draw_other sp len px py fl w resetMarker rest col line nsi ci fg bg =
    draw_go sp len px py fl w rest col line nsi ci 0 0 := by
  rw [draw_other.eq_def]
  dsimp only
  rw [if_neg (by decide), if_neg (by decide), if_pos rfl]

theorem draw_other_eq_ws_fail (sp : List Int) (len px py fl w col line : Int)
    (nsi : Nat) (ci : Int) (fg bg c : Nat) (rest : List Nat)
    (hT : ¬c = termboxMarker) (hB : ¬c = boldMarker) (hR : ¬c = resetMarker)
    (hws : isWhitespace c = true) (hfail : sp.getD (nsi + 1) len ≤ ci) :
    draw_other sp len px py fl w c rest col line nsi ci fg bg =
      ([], false) := by
  rw [draw_other.eq_def]
  dsimp only
  rw [if_neg hT, if_neg hB, if_neg hR, if_pos hws, if_pos hfail]

theorem draw_other_eq_ws_emit (sp : List Int) (len px py fl w col line : Int)
    (nsi : Nat) (ci : Int) (fg bg c : Nat) (rest : List Nat)
    (hT : ¬c = termboxMarker) (hB : ¬c = boldMarker) (hR : ¬c = resetMarker)
    (hws : isWhitespace c = true) (hok : ¬sp.getD (nsi + 1) len ≤ ci)
    (hfit : sp.getD (nsi + 1) len - ci ≤ w - (col - px)) :
    draw_other sp len px py fl w c rest col line nsi ci fg bg =
      ((if fl ≤ line then [⟨col, py + line, c, fg, bg⟩] else []) ++
        (draw_go sp len px py fl w rest (col + 1) line (nsi + 1) (ci + 1)
          fg bg).1,
       (draw_go sp len px py fl w rest (col + 1) line (nsi + 1) (ci + 1)
          fg bg).2) := by
  rw [draw_other.eq_def]
  dsimp only
  rw [if_neg hT, if_neg hB, if_neg hR, if_pos hws, if_neg hok, if_pos hfit]

theorem draw_other_eq_ws_wrap (sp : List Int) (len px py fl w col line : Int)
    (nsi : Nat) (ci : Int) (fg bg c : Nat) (rest : List Nat)
    (hT : ¬c = termboxMarker) (hB : ¬c = boldMarker) (hR : ¬c = resetMarker)
    (hws : isWhitespace c = true) (hok : ¬sp.getD (nsi + 1) len ≤ ci)
    (hnofit : ¬sp.getD (nsi + 1) len - ci ≤ w - (col - px)) :
    draw_other sp len px py fl w c rest col line nsi ci fg bg =
    draw_go sp len px py fl w rest px (line + 1) (nsi + 1) (ci + 1) fg bg := by
  rw [draw_other.eq_def]
  dsimp only
  rw [if_neg hT, if_neg hB, if_neg hR, if_pos hws, if_neg hok, if_neg hnofit]

theorem draw_other_eq_vis_emit (sp : List Int) (len px py fl w col line : Int)
    (nsi : Nat) (ci : Int) (fg bg c : Nat) (rest : List Nat)
    (hT : ¬c = termboxMarker) (hB : ¬c = boldMarker) (hR : ¬c = resetMarker)
    (hws : ¬isWhitespace c = true) (hroom : col - px < w) :
    draw_other sp len px py fl w c rest col line nsi ci fg bg =
      ((if fl ≤ line then [⟨col, py + line, c, fg, bg⟩] else []) ++
        (draw_go sp len px py fl w rest (col + 1) line nsi (ci + 1) fg bg).1,
       (draw_go sp len px py fl w rest (col + 1) line nsi (ci + 1) fg bg).2) := by
  rw [draw_other.eq_def]
  dsimp only
  rw [if_neg hT, if_neg hB, if_neg hR, if_neg hws, if_pos hroom]

theorem draw_other_eq_vis_clip (sp : List Int) (len px py fl w col line : Int)
    (nsi : Nat) (ci : Int) (fg bg c : Nat) (rest : List Nat)
    (hT : ¬c = termboxMarker) (hB : ¬c = boldMarker) (hR : ¬c = resetMarker)
    (hws : ¬isWhitespace c = true) (hnoroom : ¬col - px < w) :
    draw_other sp len px py fl w c rest col line nsi ci fg bg =
    draw_go sp len px py fl w rest col line nsi (ci + 1) fg bg := by
  rw [draw_other.eq_def]
  dsimp only
  rw [if_neg hT, if_neg hB, if_neg hR, if_neg hws, if_neg hnoroom]

theorem add_text_eq_nil (l : Line) : add_text l [] = some l := by
  rw [add_text]

theorem add_text_eq_color_end (l : Line) (d1 d2 : Nat) :
    add_text l [colorMarker, d1, d2] =
      some (pushRaw l [colorMarker, d1, d2]) := by
  rw [add_text.eq_def]
  dsimp only
  rw [if_pos rfl]

theorem add_text_eq_color_comma (l : Line) (d1 d2 b1 b2 : Nat)
    (rest : List Nat) :
    add_text l (colorMarker :: d1 :: d2 :: commaChar :: b1 :: b2 :: rest) =
    add_text (pushRaw (pushRaw l [colorMarker, d1, d2]) [commaChar, b1, b2])
      rest := by
  rw [add_text.eq_def]
  dsimp only
  rw [if_pos rfl, if_pos rfl]

theorem add_text_eq_color_comma_panic0 (l : Line) (d1 d2 : Nat) :
    add_text l (colorMarker :: d1 :: d2 :: commaChar :: []) = none := by
  rw [add_text.eq_def]
  dsimp only
  rw [if_pos rfl, if_pos rfl]

theorem add_text_eq_color_comma_panic1 (l : Line) (d1 d2 b1 : Nat) :
    add_text l (colorMarker :: d1 :: d2 :: commaChar :: [b1]) = none := by
  rw [add_text.eq_def]
  dsimp only
  rw [if_pos rfl, if_pos rfl]

theorem add_text_eq_color_other (l : Line) (d1 d2 mb : Nat) (rest : List Nat)
    (h : ¬mb = commaChar) :
    add_text l (colorMarker :: d1 :: d2 :: mb :: rest) =
    add_other (pushRaw l [colorMarker, d1, d2]) mb rest := by
  rw [add_text.eq_def]
  dsimp only
  rw [if_pos rfl, if_neg h]

theorem add_text_eq_color_panic0 (l : Line) :
    add_text l [colorMarker] = none := by
  rw [add_text.eq_def]
  dsimp only
  rw [if_pos rfl]

theorem add_text_eq_color_panic1 (l : Line) (d1 : Nat) :
    add_text l [colorMarker, d1] = none := by
  rw [add_text.eq_def]
  dsimp only
  rw [if_pos rfl]

theorem add_text_eq_other (l : Line) (c : Nat) (rest : List Nat)
    (h : ¬c = colorMarker) :
    add_text l (c :: rest) = add_other l c rest := by
  rw [add_text.eq_def]
  dsimp only
  rw [if_neg h]

theorem add_other_eq_termbox (l : Line) (f b : Nat) (rest : List Nat) :
    add_other l termboxMarker (f :: b :: rest) =
    add_text (pushRaw l [termboxMarker, f, b]) rest := by
  rw [add_other.eq_def]
  rw [if_pos rfl]

theorem add_other_eq_termbox_panic0 (l : Line) :
    add_other l termboxMarker [] = none := by
  rw [add_other.eq_def]
  rw [if_pos rfl]

theorem add_other_eq_termbox_panic1 (l : Line) (f : Nat) :
    add_other l termboxMarker [f] = none := by
  rw [add_other.eq_def]
  rw [if_pos rfl]

theorem add_other_eq_rb (l : Line) (c : Nat) (rest : List Nat)
    (h : c = resetMarker ∨ c = boldMarker) :
    add_other l c rest = add_text (pushRaw l [c]) rest := by
  have hT : ¬c = termboxMarker := by
    rcases h with h | h <;> subst h <;> decide
  rw [add_other.eq_def]
  rw [if_neg hT, if_pos h]

theorem add_other_eq_vis (l : Line) (c : Nat) (rest : List Nat)
    (hT : ¬c = termboxMarker) (hRB : ¬(c = resetMarker ∨ c = boldMarker))
    (h7 : 7 < c) :
    add_other l c rest = add_text (pushVis l c) rest := by
  rw [add_other.eq_def]
  rw [if_neg hT, if_neg hRB, if_pos h7]

theorem add_other_eq_drop (l : Line) (c : Nat) (rest : List Nat)
    (hT : ¬c = termboxMarker) (hRB : ¬(c = resetMarker ∨ c = boldMarker))
    (h7 : ¬7 < c) :
    add_other l c rest = add_text l rest := by
  rw [add_other.eq_def]
  rw [if_neg hT, if_neg hRB, if_neg h7]

theorem parseVis_eq_nil : parseVis [] = some [] := by
  rw [parseVis]

theorem parseVis_eq_color_end (d1 d2 : Nat) :
    parseVis [colorMarker, d1, d2] = some [] := by
  rw [parseVis.eq_def]
  dsimp only
  rw [if_pos rfl]

theorem parseVis_eq_color_comma (d1 d2 b1 b2 : Nat) (rest : List Nat) :
    parseVis (colorMarker :: d1 :: d2 :: commaChar :: b1 :: b2 :: rest) =
    parseVis rest := by
  rw [parseVis.eq_def]
  dsimp only
  rw [if_pos rfl, if_pos rfl]

theorem parseVis_eq_color_comma_panic0 (d1 d2 : Nat) :
    parseVis (colorMarker :: d1 :: d2 :: commaChar :: []) = none := by
  rw [parseVis.eq_def]
  dsimp only
  rw [if_pos rfl, if_pos rfl]

theorem parseVis_eq_color_comma_panic1 (d1 d2 b1 : Nat) :
    parseVis (colorMarker :: d1 :: d2 :: commaChar :: [b1]) = none := by
  rw [parseVis.eq_def]
  dsimp only
  rw [if_pos rfl, if_pos rfl]

theorem parseVis_eq_color_other (d1 d2 mb : Nat) (rest : List Nat)
    (h : ¬mb = commaChar) :
    parseVis (colorMarker :: d1 :: d2 :: mb :: rest) = parseOther mb rest := by
  rw [parseVis.eq_def]
  dsimp only
  rw [if_pos rfl, if_neg h]

theorem parseVis_eq_color_panic0 : parseVis [colorMarker] = none := by
  rw [parseVis.eq_def]
  dsimp only
  rw [if_pos rfl]

theorem parseVis_eq_color_panic1 (d1 : Nat) :
    parseVis [colorMarker, d1] = none := by
  rw [parseVis.eq_def]
  dsimp only
  rw [if_pos rfl]

theorem parseVis_eq_other (c : Nat) (rest : List Nat) (h : ¬c = colorMarker) :
    parseVis (c :: rest) = parseOther c rest := by
  rw [parseVis.eq_def]
  dsimp only
  rw [if_neg h]

theorem parseOther_eq_termbox (f b : Nat) (rest : List Nat) :
    parseOther termboxMarker (f :: b :: rest) = parseVis rest := by
  rw [parseOther.eq_def]
  rw [if_pos rfl]

theorem parseOther_eq_termbox_panic0 : parseOther termboxMarker [] = none := by
  rw [parseOther.eq_def]
  rw [if_pos rfl]

theorem parseOther_eq_termbox_panic1 (f : Nat) :
    parseOther termboxMarker [f] = none := by
  rw [parseOther.eq_def]
  rw [if_pos rfl]

theorem parseOther_eq_bold (rest : List Nat) :
    parseOther boldMarker rest = parseVis rest := by
  rw [parseOther.eq_def]
  rw [if_neg (by decide), if_pos rfl]

theorem parseOther_eq_reset (rest : List Nat) :
    parseOther resetMarker rest = parseVis rest := by
  rw [parseOther.eq_def]
  rw [if_neg (by decide), if_neg (by decide), if_pos rfl]

theorem parseOther_eq_vis (c : Nat) (rest : List Nat)
    (hT : ¬c = termboxMarker) (hB : ¬c = boldMarker) (hR : ¬c = resetMarker) :
    parseOther c rest = (parseVis rest).map (c :: ·) := by
  rw [parseOther.eq_def]
  rw [if_neg hT, if_neg hB, if_neg hR]

/-! ## Write bounds of the rendering scan -/

theorem draw_bounds_go (sp : List Int) (len px py fl w : Int) :
    ∀ (s : List Nat) (col line : Int) (nsi : Nat) (ci : Int) (fg bg : Nat),
      px ≤ col →
      ∀ cl ∈ (draw_go sp len px py fl w s col line nsi ci fg bg).1,
        px ≤ cl.x ∧ cl.x < px + w ∧ py + fl ≤ cl.y := by
  refine draw_go.induct sp len px py fl w
    (fun s col line nsi ci fg bg => px ≤ col →
      ∀ cl ∈ (draw_go sp len px py fl w s col line nsi ci fg bg).1,
        px ≤ cl.x ∧ cl.x < px + w ∧ py + fl ≤ cl.y)
    (fun c rest col line nsi ci fg bg => px ≤ col →
      ∀ cl ∈ (draw_other sp len px py fl w c rest col line nsi ci fg bg).1,
        px ≤ cl.x ∧ cl.x < px + w ∧ py + fl ≤ cl.y)
    ?_ ?_ ?_ ?_ ?_ ?_ ?_ ?_ ?_ ?_ ?_ ?_ ?_ ?_ ?_ ?_
  · intro col line nsi ci fg bg _ cl hcl
    rw [draw_go_eq_nil] at hcl
    simp at hcl
  · intro col line nsi ci fg bg d1 d2 _ cl hcl
    rw [draw_go_eq_color_end] at hcl
    simp at hcl
  · intro col line nsi ci fg bg d1 d2 fg' b1 b2 rest4 ih hcol cl hcl
    rw [draw_go_eq_color_comma] at hcl
    exact ih hcol cl hcl
  · intro col line nsi ci fg bg d1 d2 rest3 hne hcol cl hcl
    rcases rest3 with _ | ⟨b1, rest3'⟩
    · rw [draw_go_eq_color_comma_panic0] at hcl
      simp at hcl
    rcases rest3' with _ | ⟨b2, rest4⟩
    · rw [draw_go_eq_color_comma_panic1] at hcl
      simp at hcl
    exact (hne b1 b2 rest4 rfl).elim
  · intro col line nsi ci fg bg d1 d2 fg' mb rest3 hmb ih hcol cl hcl
    rw [draw_go_eq_color_other _ _ _ _ _ _ _ _ _ _ _ _ _ _ _ _ hmb] at hcl
    exact ih hcol cl hcl
  · intro col line nsi ci fg bg rest3 hne hcol cl hcl
    rcases rest3 with _ | ⟨d1, rest3'⟩
    · rw [draw_go_eq_color_panic0] at hcl
      simp at hcl
    rcases rest3' with _ | ⟨d2, rest4⟩
    · rw [draw_go_eq_color_panic1] at hcl
      simp at hcl
    exact (hne d1 d2 rest4 rfl).elim
  · intro col line nsi ci fg bg mb rest3 hmb ih hcol cl hcl
    rw [draw_go_eq_other _ _ _ _ _ _ _ _ _ _ _ _ _ _ hmb] at hcl
    exact ih hcol cl hcl
  · intro col line nsi ci fg bg b1 b2 rest4 ih hcol cl hcl
    rw [draw_other_eq_termbox] at hcl
    exact ih hcol cl hcl
  · intro rest col line nsi ci fg bg hne hcol cl hcl
    rcases rest with _ | ⟨f, rest'⟩
    · rw [draw_other_eq_termbox_panic0] at hcl
      simp at hcl
    rcases rest' with _ | ⟨b, rest2⟩
    · rw [draw_other_eq_termbox_panic1] at hcl
      simp at hcl
    exact (hne f b rest2 rfl).elim
  · intro rest col line nsi ci fg bg _ ih hcol cl hcl
    rw [draw_other_eq_bold] at hcl
    exact ih hcol cl hcl
  · intro rest col line nsi ci fg bg _ _ ih hcol cl hcl
    rw [draw_other_eq_reset] at hcl
    exact ih hcol cl hcl
  · intro c rest col line nsi ci fg bg hT hB hR hws nsi' next hfail hcol cl hcl
    rw [draw_other_eq_ws_fail _ _ _ _ _ _ _ _ _ _ _ _ _ _ hT hB hR hws hfail]
      at hcl
    simp at hcl
  · intro c rest col line nsi ci fg bg hT hB hR hws nsi' next hok hfit ih hcol
      cl hcl
    rw [draw_other_eq_ws_emit _ _ _ _ _ _ _ _ _ _ _ _ _ _ hT hB hR hws hok
      hfit] at hcl
    rw [List.mem_append] at hcl
    rcases hcl with hcl | hcl
    · by_cases hfl : fl ≤ line
      · rw [if_pos hfl] at hcl
        rw [List.mem_singleton] at hcl
        subst hcl
        refine ⟨hcol, ?_, ?_⟩
        · show col < px + w
          omega
        · show py + fl ≤ py + line
          omega
      · rw [if_neg hfl] at hcl
        simp at hcl
    · exact ih (by omega) cl hcl
  · intro c rest col line nsi ci fg bg hT hB hR hws nsi' next hok hnofit ih
      hcol cl hcl
    rw [draw_other_eq_ws_wrap _ _ _ _ _ _ _ _ _ _ _ _ _ _ hT hB hR hws hok
      hnofit] at hcl
    exact ih (by omega) cl hcl
  · intro c rest col line nsi ci fg bg hT hB hR hws hroom ih hcol cl hcl
    rw [draw_other_eq_vis_emit _ _ _ _ _ _ _ _ _ _ _ _ _ _ hT hB hR hws hroom]
      at hcl
    rw [List.mem_append] at hcl
    rcases hcl with hcl | hcl
    · by_cases hfl : fl ≤ line
      · rw [if_pos hfl] at hcl
        rw [List.mem_singleton] at hcl
        subst hcl
        refine ⟨hcol, ?_, ?_⟩
        · show col < px + w
          omega
        · show py + fl ≤ py + line
          omega
      · rw [if_neg hfl] at hcl
        simp at hcl
    · exact ih (by omega) cl hcl
  · intro c rest col line nsi ci fg bg hT hB hR hws hnoroom ih hcol cl hcl
    rw [draw_other_eq_vis_clip _ _ _ _ _ _ _ _ _ _ _ _ _ _ hT hB hR hws
      hnoroom] at hcl
    exact ih hcol cl hcl

/-! ## The rendering scan against the height computation -/

theorem wsIdx_cons_ws (c : Nat) (cs : List Nat) (i : Int)
    (h : isWhitespace c = true) :
    wsIdx (c :: cs) i = i :: wsIdx cs (i + 1) := by
  rw [wsIdx, if_pos h]

theorem wsIdx_cons_not (c : Nat) (cs : List Nat) (i : Int)
    (h : ¬isWhitespace c = true) :
    wsIdx (c :: cs) i = wsIdx cs (i + 1) := by
  rw [wsIdx, if_neg h]

theorem rh_go_cons (len w s : Int) (rest : List Int) (lines ls : Int) :
    rh_go len w (s :: rest) lines ls =
      if rest.headD len - 1 - s > w - (s - ls + 1) then
        rh_go len w rest (lines + 1) (s + 1)
      else
        rh_go len w rest lines ls := by
  rw [rh_go]

/-- The central simulation invariant: on a buffer suffix whose visible
characters are `vsRem`, when the remaining splits are exactly the
whitespace offsets of `vsRem` (from visible index `ci`), `len_chars`
counts the remaining visible characters from `ci`, and the running column
and line agree with the height computation's state `(L, ls)` over the same
split suffix, the scan completes without panics and never emits a cell at
or below row `pos_y` plus the height of the split suffix. -/
theorem draw_wf_go (sp : List Int) (len px py fl w : Int) (hw : 1 ≤ w) :
    ∀ (s : List Nat) (col line : Int) (nsi : Nat) (ci : Int) (fg bg : Nat),
      ∀ (vsRem : List Nat) (L ls : Int),
        parseVis s = some vsRem →
        List.drop nsi sp = wsIdx vsRem ci →
        len = ci + (vsRem.length : Int) →
        line = L - 1 →
        col - px = min (ci - ls) w →
        (draw_go sp len px py fl w s col line nsi ci fg bg).2 = true ∧
        ∀ cl ∈ (draw_go sp len px py fl w s col line nsi ci fg bg).1,
          cl.y < py + rh_go len w (List.drop nsi sp) L ls := by
  refine draw_go.induct sp len px py fl w
    (fun s col line nsi ci fg bg =>
      ∀ (vsRem : List Nat) (L ls : Int),
        parseVis s = some vsRem →
        List.drop nsi sp = wsIdx vsRem ci →
        len = ci + (vsRem.length : Int) →
        line = L - 1 →
        col - px = min (ci - ls) w →
        (draw_go sp len px py fl w s col line nsi ci fg bg).2 = true ∧
        ∀ cl ∈ (draw_go sp len px py fl w s col line nsi ci fg bg).1,
          cl.y < py + rh_go len w (List.drop nsi sp) L ls)
    (fun c rest col line nsi ci fg bg =>
      ∀ (vsRem : List Nat) (L ls : Int),
        parseOther c rest = some vsRem →
        List.drop nsi sp = wsIdx vsRem ci →
        len = ci + (vsRem.length : Int) →
        line = L - 1 →
        col - px = min (ci - ls) w →
        (draw_other sp len px py fl w c rest col line nsi ci fg bg).2 = true ∧
        ∀ cl ∈ (draw_other sp len px py fl w c rest col line nsi ci fg
            bg).1,
          cl.y < py + rh_go len w (List.drop nsi sp) L ls)
    ?_ ?_ ?_ ?_ ?_ ?_ ?_ ?_ ?_ ?_ ?_ ?_ ?_ ?_ ?_ ?_
  · intro col line nsi ci fg bg vsRem L ls hp hdrop hlen hline hmin
    rw [draw_go_eq_nil]
    exact ⟨rfl, by intro cl hcl; simp at hcl⟩
  · intro col line nsi ci fg bg d1 d2 vsRem L ls hp hdrop hlen hline hmin
    rw [draw_go_eq_color_end]
    exact ⟨rfl, by intro cl hcl; simp at hcl⟩
  · intro col line nsi ci fg bg d1 d2 fg' b1 b2 rest4 ih vsRem L ls hp hdrop
      hlen hline hmin
    rw [parseVis_eq_color_comma] at hp
    rw [draw_go_eq_color_comma]
    exact ih vsRem L ls hp hdrop hlen hline hmin
  · intro col line nsi ci fg bg d1 d2 rest3 hne vsRem L ls hp hdrop hlen
      hline hmin
    rcases rest3 with _ | ⟨b1, rest3'⟩
    · rw [parseVis_eq_color_comma_panic0] at hp
      simp at hp
    rcases rest3' with _ | ⟨b2, rest4⟩
    · rw [parseVis_eq_color_comma_panic1] at hp
      simp at hp
    exact (hne b1 b2 rest4 rfl).elim
  · intro col line nsi ci fg bg d1 d2 fg' mb rest3 hmb ih vsRem L ls hp hdrop
      hlen hline hmin
    rw [parseVis_eq_color_other _ _ _ _ hmb] at hp
    rw [draw_go_eq_color_other _ _ _ _ _ _ _ _ _ _ _ _ _ _ _ _ hmb]
    exact ih vsRem L ls hp hdrop hlen hline hmin
  · intro col line nsi ci fg bg rest3 hne vsRem L ls hp hdrop hlen hline hmin
    rcases rest3 with _ | ⟨d1, rest3'⟩
    · rw [parseVis_eq_color_panic0] at hp
      simp at hp
    rcases rest3' with _ | ⟨d2, rest4⟩
    · rw [parseVis_eq_color_panic1] at hp
      simp at hp
    exact (hne d1 d2 rest4 rfl).elim
  · intro col line nsi ci fg bg mb rest3 hmb ih vsRem L ls hp hdrop hlen
      hline hmin
    rw [parseVis_eq_other _ _ hmb] at hp
    rw [draw_go_eq_other _ _ _ _ _ _ _ _ _ _ _ _ _ _ hmb]
    exact ih vsRem L ls hp hdrop hlen hline hmin
  · intro col line nsi ci fg bg b1 b2 rest4 ih vsRem L ls hp hdrop hlen hline
      hmin
    rw [parseOther_eq_termbox] at hp
    rw [draw_other_eq_termbox]
    exact ih vsRem L ls hp hdrop hlen hline hmin
  · intro rest col line nsi ci fg bg hne vsRem L ls hp hdrop hlen hline hmin
    rcases rest with _ | ⟨f, rest'⟩
    · rw [parseOther_eq_termbox_panic0] at hp
      simp at hp
    rcases rest' with _ | ⟨b, rest2⟩
    · rw [parseOther_eq_termbox_panic1] at hp
      simp at hp
    exact (hne f b rest2 rfl).elim
  · intro rest col line nsi ci fg bg _ ih vsRem L ls hp hdrop hlen hline hmin
    rw [parseOther_eq_bold] at hp
    rw [draw_other_eq_bold]
    exact ih vsRem L ls hp hdrop hlen hline hmin
  · intro rest col line nsi ci fg bg _ _ ih vsRem L ls hp hdrop hlen hline
      hmin
    rw [parseOther_eq_reset] at hp
    rw [draw_other_eq_reset]
    exact ih vsRem L ls hp hdrop hlen hline hmin
  · intro c rest col line nsi ci fg bg hT hB hR hws nsi' next hfail vsRem L
      ls hp hdrop hlen hline hmin
    rw [parseOther_eq_vis _ _ hT hB hR] at hp
    cases hps : parseVis rest with
    | none => rw [hps] at hp; simp at hp
    | some vs' =>
      rw [hps] at hp
      injection hp with hp
      subst hp
      rw [wsIdx_cons_ws _ _ _ hws] at hdrop
      have htail : List.drop (nsi + 1) sp = wsIdx vs' (ci + 1) := by
        rw [← List.tail_drop, hdrop, List.tail_cons]
      have hN : sp.getD (nsi + 1) len = (wsIdx vs' (ci + 1)).headD len := by
        rw [getD_drop_headD, htail]
      have hnext : next = sp.getD (nsi + 1) len := rfl
      simp only [List.length_cons] at hlen
      have hgt : ci < sp.getD (nsi + 1) len := by
        rcases hh : wsIdx vs' (ci + 1) with _ | ⟨x, r⟩
        · rw [hh] at hN
          simp only [List.headD_nil] at hN
          omega
        · rw [hh] at hN
          simp only [List.headD_cons] at hN
          have hx := wsIdx_head_ge vs' (ci + 1) x r hh
          omega
      exact absurd hfail (by omega)
  · intro c rest col line nsi ci fg bg hT hB hR hws nsi' next hok hfit ih
      vsRem L ls hp hdrop hlen hline hmin
    rw [parseOther_eq_vis _ _ hT hB hR] at hp
    cases hps : parseVis rest with
    | none => rw [hps] at hp; simp at hp
    | some vs' =>
      rw [hps] at hp
      injection hp with hp
      subst hp
      rw [wsIdx_cons_ws _ _ _ hws] at hdrop
      have htail : List.drop (nsi + 1) sp = wsIdx vs' (ci + 1) := by
        rw [← List.tail_drop, hdrop, List.tail_cons]
      have hN : sp.getD (nsi + 1) len = (wsIdx vs' (ci + 1)).headD len := by
        rw [getD_drop_headD, htail]
      have hnext : next = sp.getD (nsi + 1) len := rfl
      simp only [List.length_cons] at hlen
      have hgt : ci < sp.getD (nsi + 1) len := by
        rcases hh : wsIdx vs' (ci + 1) with _ | ⟨x, r⟩
        · rw [hh] at hN
          simp only [List.headD_nil] at hN
          omega
        · rw [hh] at hN
          simp only [List.headD_cons] at hN
          have hx := wsIdx_head_ge vs' (ci + 1) x r hh
          omega
      have hstep : rh_go len w (List.drop nsi sp) L ls =
          rh_go len w (List.drop (nsi + 1) sp) L ls := by
        rw [hdrop, rh_go_cons, if_neg (by omega), htail]
      have ihres := ih vs' L ls hps htail (by omega) hline (by omega)
      rw [draw_other_eq_ws_emit _ _ _ _ _ _ _ _ _ _ _ _ _ _ hT hB hR hws
        (by omega) (by omega)]
      constructor
      · exact ihres.1
      · intro cl hcl
        rw [List.mem_append] at hcl
        rcases hcl with hcl | hcl
        · by_cases hfl : fl ≤ line
          · rw [if_pos hfl, List.mem_singleton] at hcl
            subst hcl
            have hge := rh_go_ge len w (List.drop (nsi + 1) sp) L ls
            show py + line < py + rh_go len w (List.drop nsi sp) L ls
            rw [hstep]
            omega
          · rw [if_neg hfl] at hcl
            simp at hcl
        · have := ihres.2 cl hcl
          rw [hstep]
          exact this
  · intro c rest col line nsi ci fg bg hT hB hR hws nsi' next hok hnofit ih
      vsRem L ls hp hdrop hlen hline hmin
    rw [parseOther_eq_vis _ _ hT hB hR] at hp
    cases hps : parseVis rest with
    | none => rw [hps] at hp; simp at hp
    | some vs' =>
      rw [hps] at hp
      injection hp with hp
      subst hp
      rw [wsIdx_cons_ws _ _ _ hws] at hdrop
      have htail : List.drop (nsi + 1) sp = wsIdx vs' (ci + 1) := by
        rw [← List.tail_drop, hdrop, List.tail_cons]
      have hN : sp.getD (nsi + 1) len = (wsIdx vs' (ci + 1)).headD len := by
        rw [getD_drop_headD, htail]
      have hnext : next = sp.getD (nsi + 1) len := rfl
      simp only [List.length_cons] at hlen
      have hgt : ci < sp.getD (nsi + 1) len := by
        rcases hh : wsIdx vs' (ci + 1) with _ | ⟨x, r⟩
        · rw [hh] at hN
          simp only [List.headD_nil] at hN
          omega
        · rw [hh] at hN
          simp only [List.headD_cons] at hN
          have hx := wsIdx_head_ge vs' (ci + 1) x r hh
          omega
      have hstep : rh_go len w (List.drop nsi sp) L ls =
          rh_go len w (List.drop (nsi + 1) sp) (L + 1) (ci + 1) := by
        rw [hdrop, rh_go_cons, if_pos (by omega), htail]
      have ihres := ih vs' (L + 1) (ci + 1) hps htail (by omega) (by omega)
        (by omega)
      rw [draw_other_eq_ws_wrap _ _ _ _ _ _ _ _ _ _ _ _ _ _ hT hB hR hws
        (by omega) (by omega)]
      refine ⟨ihres.1, ?_⟩
      intro cl hcl
      have := ihres.2 cl hcl
      rw [hstep]
      exact this
  · intro c rest col line nsi ci fg bg hT hB hR hws hroom ih vsRem L ls hp
      hdrop hlen hline hmin
    rw [parseOther_eq_vis _ _ hT hB hR] at hp
    cases hps : parseVis rest with
    | none => rw [hps] at hp; simp at hp
    | some vs' =>
      rw [hps] at hp
      injection hp with hp
      subst hp
      rw [wsIdx_cons_not _ _ _ hws] at hdrop
      simp only [List.length_cons] at hlen
      have ihres := ih vs' L ls hps hdrop (by omega) hline (by omega)
      rw [draw_other_eq_vis_emit _ _ _ _ _ _ _ _ _ _ _ _ _ _ hT hB hR hws
        hroom]
      constructor
      · exact ihres.1
      · intro cl hcl
        rw [List.mem_append] at hcl
        rcases hcl with hcl | hcl
        · by_cases hfl : fl ≤ line
          · rw [if_pos hfl, List.mem_singleton] at hcl
            subst hcl
            have hge := rh_go_ge len w (List.drop nsi sp) L ls
            show py + line < py + rh_go len w (List.drop nsi sp) L ls
            omega
          · rw [if_neg hfl] at hcl
            simp at hcl
        · exact ihres.2 cl hcl
  · intro c rest col line nsi ci fg bg hT hB hR hws hnoroom ih vsRem L ls hp
      hdrop hlen hline hmin
    rw [parseOther_eq_vis _ _ hT hB hR] at hp
    cases hps : parseVis rest with
    | none => rw [hps] at hp; simp at hp
    | some vs' =>
      rw [hps] at hp
      injection hp with hp
      subst hp
      rw [wsIdx_cons_not _ _ _ hws] at hdrop
      simp only [List.length_cons] at hlen
      have ihres := ih vs' L ls hps hdrop (by omega) hline (by omega)
      rw [draw_other_eq_vis_clip _ _ _ _ _ _ _ _ _ _ _ _ _ _ hT hB hR hws
        hnoroom]
      exact ihres

/-! ## Height monotonicity in the width -/

theorem rh_go_mono (len : Int) :
    ∀ (splits : List Int) (w1 w2 L1 ls1 L2 ls2 : Int),
      List.Pairwise (· < ·) splits →
      w1 ≤ w2 →
      (∀ s ∈ splits, ls1 ≤ s ∧ ls2 ≤ s) →
      L2 ≤ L1 → (L2 < L1 ∨ ls1 ≤ ls2) →
      rh_go len w2 splits L2 ls2 ≤ rh_go len w1 splits L1 ls1 := by
  intro splits
  induction splits with
  | nil =>
    intro w1 w2 L1 ls1 L2 ls2 _ _ _ hL _
    simpa [rh_go] using hL
  | cons s rest ih =>
    intro w1 w2 L1 ls1 L2 ls2 hpw hw hls hL hdisj
    obtain ⟨hhead, htailpw⟩ := List.pairwise_cons.1 hpw
    have hs1 : ls1 ≤ s := (hls s (List.mem_cons_self s rest)).1
    have hs2 : ls2 ≤ s := (hls s (List.mem_cons_self s rest)).2
    rw [rh_go_cons, rh_go_cons]
    by_cases h2 : rest.headD len - 1 - s > w2 - (s - ls2 + 1)
    · by_cases h1 : rest.headD len - 1 - s > w1 - (s - ls1 + 1)
      · rw [if_pos h2, if_pos h1]
        refine ih w1 w2 (L1 + 1) (s + 1) (L2 + 1) (s + 1) htailpw hw
          (fun t ht => ?_) (by omega) (Or.inr le_rfl)
        have := hhead t ht
        omega
      · rcases hdisj with hd | hd
        · rw [if_pos h2, if_neg h1]
          refine ih w1 w2 L1 ls1 (L2 + 1) (s + 1) htailpw hw
            (fun t ht => ?_) (by omega) (Or.inr (by omega))
          have := hhead t ht
          exact ⟨(hls t (List.mem_cons_of_mem s ht)).1, by omega⟩
        · exact absurd (by omega) h1
    · by_cases h1 : rest.headD len - 1 - s > w1 - (s - ls1 + 1)
      · rw [if_neg h2, if_pos h1]
        refine ih w1 w2 (L1 + 1) (s + 1) L2 ls2 htailpw hw
          (fun t ht => ?_) (by omega) (Or.inl (by omega))
        have := hhead t ht
        exact ⟨by omega, (hls t (List.mem_cons_of_mem s ht)).2⟩
      · rw [if_neg h2, if_neg h1]
        exact ih w1 w2 L1 ls1 L2 ls2 htailpw hw
          (fun t ht => hls t (List.mem_cons_of_mem s ht)) hL hdisj

/-! ## Preservation of the split-list invariant by the append operations -/

theorem splitsInv_pushRaw (l : Line) (cs : List Nat) (h : SplitsInv l) :
    SplitsInv (pushRaw l cs) := by
  simpa [SplitsInv, pushRaw] using h

theorem splitsInv_pushVis (l : Line) (c : Nat) (h : SplitsInv l) :
    SplitsInv (pushVis l c) := by
  obtain ⟨hpw, hb, hlen⟩ := h
  unfold SplitsInv pushVis
  dsimp only
  by_cases hws : isWhitespace c
  · rw [if_pos hws]
    refine ⟨?_, ?_, by omega⟩
    · rw [List.pairwise_append]
      refine ⟨hpw, List.pairwise_singleton _ _, fun a ha b hb' => ?_⟩
      rw [List.mem_singleton] at hb'
      subst hb'
      exact (hb a ha).2
    · intro v hv
      rw [List.mem_append, List.mem_singleton] at hv
      rcases hv with hv | hv
      · have := hb v hv
        omega
      · subst hv
        omega
  · rw [if_neg hws]
    refine ⟨hpw, ?_, by omega⟩
    intro v hv
    have := hb v hv
    omega

theorem add_text_inv :
    ∀ (l : Line) (s : List Nat) (l' : Line),
      add_text l s = some l' → SplitsInv l → SplitsInv l' := by
  have main : ∀ (l : Line) (s : List Nat),
      ∀ l', add_text l s = some l' → SplitsInv l → SplitsInv l' := by
    refine add_text.induct
      (fun l s => ∀ l', add_text l s = some l' → SplitsInv l → SplitsInv l')
      (fun l c rest => ∀ l', add_other l c rest = some l' → SplitsInv l →
        SplitsInv l')
      ?_ ?_ ?_ ?_ ?_ ?_ ?_ ?_ ?_ ?_ ?_ ?_
    · intro l l' h hi
      rw [add_text_eq_nil] at h
      injection h with h
      subst h
      exact hi
    · intro l d1 d2 l' h hi
      rw [add_text_eq_color_end] at h
      injection h with h
      subst h
      exact splitsInv_pushRaw _ _ hi
    · intro l d1 d2 b1 b2 rest4 ih l' h hi
      rw [add_text_eq_color_comma] at h
      exact ih l' h (splitsInv_pushRaw _ _ (splitsInv_pushRaw _ _ hi))
    · intro l d1 d2 rest3 hne l' h hi
      rcases rest3 with _ | ⟨b1, r⟩
      · rw [add_text_eq_color_comma_panic0] at h
        simp at h
      rcases r with _ | ⟨b2, rest4⟩
      · rw [add_text_eq_color_comma_panic1] at h
        simp at h
      exact (hne b1 b2 rest4 rfl).elim
    · intro l d1 d2 mb rest3 hmb ih l' h hi
      rw [add_text_eq_color_other _ _ _ _ _ hmb] at h
      exact ih l' h (splitsInv_pushRaw _ _ hi)
    · intro l rest3 hne l' h hi
      rcases rest3 with _ | ⟨d1, r⟩
      · rw [add_text_eq_color_panic0] at h
        simp at h
      rcases r with _ | ⟨d2, rest4⟩
      · rw [add_text_eq_color_panic1] at h
        simp at h
      exact (hne d1 d2 rest4 rfl).elim
    · intro l mb rest3 hmb ih l' h hi
      rw [add_text_eq_other _ _ _ hmb] at h
      exact ih l' h hi
    · intro l f b rest4 ih l' h hi
      rw [add_other_eq_termbox] at h
      exact ih l' h (splitsInv_pushRaw _ _ hi)
    · intro l rest hne l' h hi
      rcases rest with _ | ⟨f, r⟩
      · rw [add_other_eq_termbox_panic0] at h
        simp at h
      rcases r with _ | ⟨b, rest2⟩
      · rw [add_other_eq_termbox_panic1] at h
        simp at h
      exact (hne f b rest2 rfl).elim
    · intro l c rest hT hrb ih l' h hi
      rw [add_other_eq_rb _ _ _ hrb] at h
      exact ih l' h (splitsInv_pushRaw _ _ hi)
    · intro l c rest hT hrb h7 ih l' h hi
      rw [add_other_eq_vis _ _ _ hT hrb h7] at h
      exact ih l' h (splitsInv_pushVis _ _ hi)
    · intro l c rest hT hrb h7 ih l' h hi
      rw [add_other_eq_drop _ _ _ hT hrb h7] at h
      exact ih l' h hi
  exact fun l s l' h hi => main l s l' h hi

theorem reach_splitsInv : ∀ l, Reach l → SplitsInv l := by
  intro l h
  induction h with
  | new =>
    refine ⟨List.Pairwise.nil, ?_, ?_⟩ <;> simp [Line.new]
  | text hr htext ih => exact add_text_inv _ _ _ htext ih
  | char hr hchar ih =>
    rename_i l0 c l1
    simp only [add_char] at hchar
    split at hchar
    · simp at hchar
    · injection hchar with hchar
      subst hchar
      exact splitsInv_pushVis _ _ ih

/-! ## Clean truncation at the comma-lookahead boundary -/

theorem add_text_trunc_comma :
    ∀ (p : List Nat) (l : Line) (d1 d2 : Nat),
      (∀ c ∈ p, ¬c = colorMarker ∧ ¬c = termboxMarker) →
      ∃ l', add_text l (p ++ [colorMarker, d1, d2]) = some l' := by
  intro p
  induction p with
  | nil =>
    intro l d1 d2 _
    exact ⟨pushRaw l [colorMarker, d1, d2], add_text_eq_color_end l d1 d2⟩
  | cons c p ih =>
    intro l d1 d2 hc
    have hcC := (hc c (List.mem_cons_self c p)).1
    have hcT := (hc c (List.mem_cons_self c p)).2
    have hc' : ∀ x ∈ p, ¬x = colorMarker ∧ ¬x = termboxMarker :=
      fun x hx => hc x (List.mem_cons_of_mem c hx)
    rw [List.cons_append, add_text_eq_other _ _ _ hcC]
    by_cases hrb : c = resetMarker ∨ c = boldMarker
    · rw [add_other_eq_rb _ _ _ hrb]
      exact ih _ d1 d2 hc'
    · by_cases h7 : 7 < c
      · rw [add_other_eq_vis _ _ _ hcT hrb h7]
        exact ih _ d1 d2 hc'
      · rw [add_other_eq_drop _ _ _ hcT hrb h7]
        exact ih _ d1 d2 hc'

/-! ## Ingestion on marker-free input: stored and counted characters -/

theorem add_text_no_markers :
    ∀ (s : List Nat) (l : Line),
      (∀ c ∈ s, ¬c = colorMarker ∧ ¬c = termboxMarker) →
      ∃ l', add_text l s = some l' ∧
        l'.str = l.str ++ s.filter storedChar ∧
        l'.len_chars =
          l.len_chars + ((s.filter countedChar).length : Int) := by
  intro s
  induction s with
  | nil =>
    intro l _
    exact ⟨l, add_text_eq_nil l, by simp, by simp⟩
  | cons c s ih =>
    intro l hc
    have hcC := (hc c (List.mem_cons_self c s)).1
    have hcT := (hc c (List.mem_cons_self c s)).2
    have hc' : ∀ x ∈ s, ¬x = colorMarker ∧ ¬x = termboxMarker :=
      fun x hx => hc x (List.mem_cons_of_mem c hx)
    rw [add_text_eq_other _ _ _ hcC]
    by_cases hrb : c = resetMarker ∨ c = boldMarker
    · rw [add_other_eq_rb _ _ _ hrb]
      obtain ⟨l', h1, h2, h3⟩ := ih (pushRaw l [c]) hc'
      refine ⟨l', h1, ?_, ?_⟩
      · rw [h2]
        have hst : storedChar c = true := by
          rcases hrb with h | h <;> subst h <;> rfl
        rw [List.filter_cons, if_pos hst]
        simp [pushRaw]
      · rw [h3]
        have hct : countedChar c = false := by
          rcases hrb with h | h <;> subst h <;> rfl
        rw [List.filter_cons, if_neg (by simp [hct])]
        simp [pushRaw]
    · by_cases h7 : 7 < c
      · rw [add_other_eq_vis _ _ _ hcT hrb h7]
        obtain ⟨l', h1, h2, h3⟩ := ih (pushVis l c) hc'
        have hR : ¬c = resetMarker := fun h => hrb (Or.inl h)
        have hB : ¬c = boldMarker := fun h => hrb (Or.inr h)
        refine ⟨l', h1, ?_, ?_⟩
        · rw [h2]
          have hst : storedChar c = true := by
            simp [storedChar, h7]
          rw [List.filter_cons, if_pos hst]
          simp [pushVis]
        · rw [h3]
          have hct : countedChar c = true := by
            simp [countedChar, h7, hR, hB]
          rw [List.filter_cons, if_pos hct]
          simp [pushVis]
          omega
      · rw [add_other_eq_drop _ _ _ hcT hrb h7]
        obtain ⟨l', h1, h2, h3⟩ := ih l hc'
        have hR : ¬c = resetMarker := fun h => hrb (Or.inl h)
        have hB : ¬c = boldMarker := fun h => hrb (Or.inr h)
        have hst : storedChar c = false := by
          simp [storedChar, h7, hR, hB]
        have hct : countedChar c = false := by
          simp [countedChar, h7]
        refine ⟨l', h1, ?_, ?_⟩
        · rw [h2, List.filter_cons, if_neg (by simp [hst])]
        · rw [h3, List.filter_cons, if_neg (by simp [hct])]

/-! ## Style state across complete directive units -/

theorem draw_go_dirs (sp : List Int) (len px py fl w : Int) :
    ∀ (ds : List StyleDir) (rest : List Nat) (col line : Int) (nsi : Nat)
      (ci : Int) (fg bg : Nat),
      draw_go sp len px py fl w (encodeDirs ds ++ rest) col line nsi ci fg
        bg =
      draw_go sp len px py fl w rest col line nsi ci
        (applyDirs (fg, bg) ds).1 (applyDirs (fg, bg) ds).2 := by
  intro ds
  induction ds with
  | nil =>
    intro rest col line nsi ci fg bg
    simp [encodeDirs, applyDirs]
  | cons d ds ih =>
    intro rest col line nsi ci fg bg
    have henc : encodeDirs (d :: ds) = encodeDir d ++ encodeDirs ds := by
      simp [encodeDirs]
    rw [henc, List.append_assoc]
    cases d with
    | color d1 d2 b1 b2 =>
      simp only [encodeDir, List.cons_append, List.nil_append]
      rw [draw_go_eq_color_comma, ih]
      simp only [applyDirs, List.foldl_cons, applyDir]
    | native f b =>
      simp only [encodeDir, List.cons_append, List.nil_append]
      rw [draw_go_eq_other _ _ _ _ _ _ _ _ _ _ _ _ _ _ (by decide),
        draw_other_eq_termbox, ih]
      simp only [applyDirs, List.foldl_cons, applyDir]
    | bold =>
      simp only [encodeDir, List.cons_append, List.nil_append]
      rw [draw_go_eq_other _ _ _ _ _ _ _ _ _ _ _ _ _ _ (by decide),
        draw_other_eq_bold, ih]
      simp only [applyDirs, List.foldl_cons, applyDir]
    | reset =>
      simp only [encodeDir, List.cons_append, List.nil_append]
      rw [draw_go_eq_other _ _ _ _ _ _ _ _ _ _ _ _ _ _ (by decide),
        draw_other_eq_reset, ih]
      simp only [applyDirs, List.foldl_cons, applyDir]

/-! ## The claims -/

/-- C1 (counterexample): `add_text` does read past a truncation boundary
where digits are expected: on the input consisting of the bare color
marker, ingestion panics (`unwrap` on a missing digit) instead of stopping
cleanly; the claim that `add_text` terminates without panic on every input
string is false. -/
theorem claim_c1_counterexample : add_text Line.new [colorMarker] = none :=
  add_text_eq_color_panic0 Line.new

/-- C1 (amended): ingestion stops cleanly at a truncation boundary only at
the comma-lookahead position: when the input ends exactly after the color
marker and its two digit characters (here preceded by any input that
contains no color and no native-palette marker), `add_text` completes and
returns the updated line; truncation where the digits, the background
digits or the native raw codes themselves are expected panics, as the
counterexample shows. -/
theorem claim_c1_amended (l : Line) (p : List Nat) (d1 d2 : Nat)
    (hp : ∀ c ∈ p, ¬c = colorMarker ∧ ¬c = termboxMarker) :
    ∃ l', add_text l (p ++ [colorMarker, d1, d2]) = some l' :=
  add_text_trunc_comma p l d1 d2 hp

/-- C1 (witness): the amended theorem at the concrete input
`"ab" ++ [color marker, '1', '2']`. -/
theorem claim_c1_witness :
    (∀ c ∈ [97, 98], ¬c = colorMarker ∧ ¬c = termboxMarker) ∧
    ∃ l', add_text Line.new ([97, 98] ++ [colorMarker, 49, 50]) = some l' :=
  ⟨by decide, claim_c1_amended Line.new [97, 98] 49 50 (by decide)⟩

/-- C3: for every line (well-formed or not), every `width ≥ 1` and
`first_line ≥ 0`, every cell write performed by `draw_from` has its column
in `[pos_x, pos_x + width)` and its row at least `pos_y + first_line`. -/
theorem claim_c3 (l : Line) (px py fl w : Int) (hw : 1 ≤ w) (hfl : 0 ≤ fl) :
    ∀ cl ∈ (draw_from l px py fl w).1,
      px ≤ cl.x ∧ cl.x < px + w ∧ py + fl ≤ cl.y := by
  intro cl hcl
  exact draw_bounds_go l.splits l.len_chars px py fl w l.str px 0 0 0 0 0
    le_rfl cl hcl

/-- C3 (witness): the bounds at the concrete line for `"a b"` drawn at
position (2, 7) with `first_line = 1` and width 2. -/
theorem claim_c3_witness :
    (1 : Int) ≤ 2 ∧ (0 : Int) ≤ 1 ∧
    ∀ cl ∈ (draw_from ⟨[97, 32, 98], 3, [1]⟩ 2 7 1 2).1,
      2 ≤ cl.x ∧ cl.x < 2 + 2 ∧ 7 + 1 ≤ cl.y :=
  ⟨by decide, by decide,
    claim_c3 ⟨[97, 32, 98], 3, [1]⟩ 2 7 1 2 (by decide) (by decide)⟩

/-- C6: for fixed content whose split list satisfies the data-model
invariant (strictly increasing, nonnegative), `rendered_height` is
non-increasing in the width. -/
theorem claim_c6 (l : Line) (w1 w2 : Int)
    (hpw : List.Pairwise (· < ·) l.splits) (hnn : ∀ s ∈ l.splits, 0 ≤ s)
    (h1 : 1 ≤ w1) (hw : w1 ≤ w2) :
    rendered_height l w2 ≤ rendered_height l w1 := by
  unfold rendered_height
  exact rh_go_mono l.len_chars l.splits w1 w2 1 0 1 0 hpw hw
    (fun s hs => ⟨hnn s hs, hnn s hs⟩) le_rfl (Or.inr le_rfl)

/-- C6 (witness): monotonicity at the concrete line for `"a b c d e"`
between widths 2 and 5. -/
theorem claim_c6_witness :
    List.Pairwise (· < ·) ([1, 3, 5, 7] : List Int) ∧
    (∀ s ∈ ([1, 3, 5, 7] : List Int), 0 ≤ s) ∧ (1 : Int) ≤ 2 ∧ (2 : Int) ≤ 5 ∧
    rendered_height ⟨[97, 32, 98, 32, 99, 32, 100, 32, 101], 9, [1, 3, 5, 7]⟩
        5 ≤
      rendered_height ⟨[97, 32, 98, 32, 99, 32, 100, 32, 101], 9,
        [1, 3, 5, 7]⟩ 2 :=
  ⟨by decide, by decide, by decide, by decide,
    claim_c6 ⟨[97, 32, 98, 32, 99, 32, 100, 32, 101], 9, [1, 3, 5, 7]⟩ 2 5
      (by decide) (by decide) (by decide) (by decide)⟩

/-- C7: a line with an empty split list has rendered height 1 for every
width, regardless of `visible_length`. -/
theorem claim_c7 (l : Line) (w : Int) (hs : l.splits = []) (hw : 1 ≤ w) :
    rendered_height l w = 1 := by
  rw [rendered_height, hs]
  rfl

/-- C7 (witness): height 1 for the splitless line of `"abc"` at width 1,
where `visible_length = 3` exceeds the width. -/
theorem claim_c7_witness :
    (⟨[97, 98, 99], 3, []⟩ : Line).splits = [] ∧ (1 : Int) ≤ 1 ∧
    rendered_height ⟨[97, 98, 99], 3, []⟩ 1 = 1 :=
  ⟨rfl, by decide, claim_c7 ⟨[97, 98, 99], 3, []⟩ 1 rfl (by decide)⟩

/-- C9 (counterexample): a control character at or below 0x07 that is not
a directive marker does reach the visible buffer when appended through
`add_char`: appending 0x01 stores it in the buffer and counts it in
`visible_length`. -/
theorem claim_c9_counterexample :
    add_char Line.new 1 = some ⟨[1], 1, []⟩ ∧ (1 : Nat) ≤ 7 ∧
    ¬(1 = colorMarker ∨ 1 = termboxMarker ∨ 1 = boldMarker ∨
      1 = resetMarker) := by
  refine ⟨?_, by decide, by decide⟩
  simp +decide [add_char, pushVis, Line.new]

/-- C9 (amended): the silent-discard rule holds for `append_text` at its
top-level scan: on input free of color and native-palette markers (so no
character is consumed as a directive operand), `add_text` succeeds, stores
exactly the reset and bold markers and the characters above 0x07, and
counts exactly the stored non-marker characters; in particular every
non-marker character at or below 0x07 is discarded. `append_char` performs
no such filtering (see the counterexample). -/
theorem claim_c9_amended (s : List Nat) (l : Line)
    (hs : ∀ c ∈ s, ¬c = colorMarker ∧ ¬c = termboxMarker) :
    ∃ l', add_text l s = some l' ∧
      l'.str = l.str ++ s.filter storedChar ∧
      l'.len_chars = l.len_chars + ((s.filter countedChar).length : Int) :=
  add_text_no_markers s l hs

/-- C9 (witness): the amended theorem at the input `[0x01, 'a', 0x0F]`:
the control character 0x01 is discarded, the visible character and the
reset marker are stored, and only the visible character is counted. -/
theorem claim_c9_witness :
    (∀ c ∈ [1, 97, 15], ¬c = colorMarker ∧ ¬c = termboxMarker) ∧
    ∃ l', add_text Line.new [1, 97, 15] = some l' ∧
      l'.str = Line.new.str ++ ([1, 97, 15].filter storedChar) ∧
      l'.len_chars = Line.new.len_chars +
        (([1, 97, 15].filter countedChar).length : Int) :=
  ⟨by decide, claim_c9_amended [1, 97, 15] Line.new (by decide)⟩

/-- C10: the concrete height table: for the line fed exactly
`"a b c d e"`, heights 5, 5, 3, 3, 2, 2, 2, 2, 1 at widths 1 through 9;
for the line fed exactly `"ab c d e"`, height 4 at width 1, 2 at width 4
and 1 at width 8. -/
theorem claim_c10 :
    (∃ l, add_text Line.new [97, 32, 98, 32, 99, 32, 100, 32, 101] =
        some l ∧
      rendered_height l 1 = 5 ∧ rendered_height l 2 = 5 ∧
      rendered_height l 3 = 3 ∧ rendered_height l 4 = 3 ∧
      rendered_height l 5 = 2 ∧ rendered_height l 6 = 2 ∧
      rendered_height l 7 = 2 ∧ rendered_height l 8 = 2 ∧
      rendered_height l 9 = 1) ∧
    (∃ l, add_text Line.new [97, 98, 32, 99, 32, 100, 32, 101] = some l ∧
      rendered_height l 1 = 4 ∧ rendered_height l 4 = 2 ∧
      rendered_height l 8 = 1) := by
  constructor
  · refine ⟨⟨[97, 32, 98, 32, 99, 32, 100, 32, 101], 9, [1, 3, 5, 7]⟩, ?_,
      by decide, by decide, by decide, by decide, by decide, by decide,
      by decide, by decide, by decide⟩
    simp +decide [add_text_eq_nil, add_text_eq_other, add_other_eq_vis,
      pushVis, Line.new, isWhitespace]
  · refine ⟨⟨[97, 98, 32, 99, 32, 100, 32, 101], 8, [2, 4, 6]⟩, ?_,
      by decide, by decide, by decide⟩
    simp +decide [add_text_eq_nil, add_text_eq_other, add_other_eq_vis,
      pushVis, Line.new, isWhitespace]

/-- C2: for every line satisfying the data-model invariant of section 3
(`wfLine`) and every width at least 1, every cell emitted by `draw_from`
has its row index relative to `pos_y` strictly below
`rendered_height width`; consequently a `first_line` at or above the
rendered height produces zero cells. -/
theorem claim_c2 (l : Line) (px py fl w : Int) (hwf : wfLine l = true)
    (hw : 1 ≤ w) :
    (∀ cl ∈ (draw_from l px py fl w).1, cl.y - py < rendered_height l w) ∧
    (rendered_height l w ≤ fl → (draw_from l px py fl w).1 = []) := by
  unfold wfLine at hwf
  cases hps : parseVis l.str with
  | none =>
    rw [hps] at hwf
    simp at hwf
  | some vs =>
    rw [hps] at hwf
    simp only [Bool.and_eq_true, beq_iff_eq] at hwf
    obtain ⟨hlen, hsplits⟩ := hwf
    have master := draw_wf_go l.splits l.len_chars px py fl w hw l.str px 0
      0 0 0 0 vs 1 0 hps (by rw [List.drop_zero]; exact hsplits)
      (by omega) (by decide) (by omega)
    constructor
    · intro cl hcl
      have h1 := master.2 cl hcl
      rw [List.drop_zero] at h1
      have h2 : rh_go l.len_chars w l.splits 1 0 = rendered_height l w := rfl
      omega
    · intro hge
      rw [List.eq_nil_iff_forall_not_mem]
      intro cl hcl
      have h1 := master.2 cl hcl
      rw [List.drop_zero] at h1
      have h2 := (draw_bounds_go l.splits l.len_chars px py fl w l.str px 0
        0 0 0 0 le_rfl cl hcl).2.2
      have h3 : rh_go l.len_chars w l.splits 1 0 = rendered_height l w := rfl
      omega

/-- C2 (witness): the row bound and the zero-cell consequence at the
concrete well-formed line for `"a b"` and width 5. -/
theorem claim_c2_witness :
    wfLine ⟨[97, 32, 98], 3, [1]⟩ = true ∧ (1 : Int) ≤ 5 ∧
    ((∀ cl ∈ (draw_from ⟨[97, 32, 98], 3, [1]⟩ 0 0 0 5).1,
        cl.y - 0 < rendered_height ⟨[97, 32, 98], 3, [1]⟩ 5) ∧
      (rendered_height ⟨[97, 32, 98], 3, [1]⟩ 5 ≤ 0 →
        (draw_from ⟨[97, 32, 98], 3, [1]⟩ 0 0 0 5).1 = [])) := by
  have hwf : wfLine ⟨[97, 32, 98], 3, [1]⟩ = true := by
    simp +decide [wfLine, parseVis_eq_other, parseOther_eq_vis,
      parseVis_eq_nil, isWhitespace]
  exact ⟨hwf, by decide, claim_c2 ⟨[97, 32, 98], 3, [1]⟩ 0 0 0 5 hwf
    (by decide)⟩

/-- C4 (counterexample): a line built by three completed `append_text`
calls (a color directive truncated at the comma-lookahead boundary, then
content beginning with a comma and stray whitespace, then two visible
characters and a split) makes `draw_from` fail its internal assertion
that the next split position exceeds the current visible index: the scan
panics, so rendering does not run to completion for every line built by
precondition-respecting appends. -/
theorem claim_c4_counterexample :
    add_text Line.new [colorMarker, 49, 50] =
      some ⟨[colorMarker, 49, 50], 0, []⟩ ∧
    add_text ⟨[colorMarker, 49, 50], 0, []⟩ [commaChar, 32, 32] =
      some ⟨[colorMarker, 49, 50, commaChar, 32, 32], 3, [1, 2]⟩ ∧
    add_text ⟨[colorMarker, 49, 50, commaChar, 32, 32], 3, [1, 2]⟩
      [97, 98, 32, 99] =
      some ⟨[colorMarker, 49, 50, commaChar, 32, 32, 97, 98, 32, 99], 7,
        [1, 2, 5]⟩ ∧
    (draw_from ⟨[colorMarker, 49, 50, commaChar, 32, 32, 97, 98, 32, 99],
      7, [1, 2, 5]⟩ 0 0 0 10).2 = false := by
  refine ⟨add_text_eq_color_end Line.new 49 50, ?_, ?_, ?_⟩
  · simp +decide [add_text_eq_nil, add_text_eq_other, add_other_eq_vis,
      pushVis, isWhitespace]
  · simp +decide [add_text_eq_nil, add_text_eq_other, add_other_eq_vis,
      pushVis, isWhitespace]
  · show (draw_go [1, 2, 5] 7 0 0 0 10
      [colorMarker, 49, 50, commaChar, 32, 32, 97, 98, 32, 99]
      0 0 0 0 0 0).2 = false
    rw [draw_go_eq_color_comma]
    rw [draw_go_eq_other _ _ _ _ _ _ _ _ _ _ _ _ _ _ (by decide)]
    rw [draw_other_eq_vis_emit _ _ _ _ _ _ _ _ _ _ _ _ _ _ (by decide)
      (by decide) (by decide) (by decide) (by decide)]
    rw [draw_go_eq_other _ _ _ _ _ _ _ _ _ _ _ _ _ _ (by decide)]
    rw [draw_other_eq_vis_emit _ _ _ _ _ _ _ _ _ _ _ _ _ _ (by decide)
      (by decide) (by decide) (by decide) (by decide)]
    rw [draw_go_eq_other _ _ _ _ _ _ _ _ _ _ _ _ _ _ (by decide)]
    rw [draw_other_eq_ws_fail _ _ _ _ _ _ _ _ _ _ _ _ _ _ (by decide)
      (by decide) (by decide) (by decide) (by decide)]

/-- C4 (amended): rendering runs to completion without fault (no missing
operand `unwrap`, no assertion failure) for every line satisfying the
data-model invariant of section 3 (`wfLine`) and every width at least 1;
lines built by arbitrary precondition-respecting append sequences can
violate that invariant and fault, as the counterexample shows. -/
theorem claim_c4_amended (l : Line) (px py fl w : Int)
    (hwf : wfLine l = true) (hw : 1 ≤ w) :
    (draw_from l px py fl w).2 = true := by
  unfold wfLine at hwf
  cases hps : parseVis l.str with
  | none =>
    rw [hps] at hwf
    simp at hwf
  | some vs =>
    rw [hps] at hwf
    simp only [Bool.and_eq_true, beq_iff_eq] at hwf
    obtain ⟨hlen, hsplits⟩ := hwf
    exact (draw_wf_go l.splits l.len_chars px py fl w hw l.str px 0 0 0 0 0
      vs 1 0 hps (by rw [List.drop_zero]; exact hsplits) (by omega)
      (by decide) (by omega)).1

/-- C4 (witness): fault-free completion at the concrete well-formed line
for `"a b"` drawn at width 2. -/
theorem claim_c4_witness :
    wfLine ⟨[97, 32, 98], 3, [1]⟩ = true ∧ (1 : Int) ≤ 2 ∧
    (draw_from ⟨[97, 32, 98], 3, [1]⟩ 0 0 0 2).2 = true := by
  have hwf : wfLine ⟨[97, 32, 98], 3, [1]⟩ = true := by
    simp +decide [wfLine, parseVis_eq_other, parseOther_eq_vis,
      parseVis_eq_nil, isWhitespace]
  exact ⟨hwf, by decide, claim_c4_amended ⟨[97, 32, 98], 3, [1]⟩ 0 0 0 2 hwf
    (by decide)⟩

/-- C5 (counterexample): the color directive does not set the foreground
to the palette-mapped decoded value: it ORs it into the existing
foreground. After a first color directive (code 04, mapped to 9), a second
color directive (code 02, mapped to 17) leaves the following cell with
foreground 9 ||| 17 = 25, not the mapped value 17. -/
theorem claim_c5_counterexample :
    add_text Line.new
      [colorMarker, 48, 52, 97, colorMarker, 48, 50, 98] =
      some ⟨[colorMarker, 48, 52, 97, colorMarker, 48, 50, 98], 2, []⟩ ∧
    draw_from ⟨[colorMarker, 48, 52, 97, colorMarker, 48, 50, 98], 2, []⟩
      0 0 0 10 =
      ([⟨0, 0, 97, 9, 0⟩, ⟨1, 0, 98, 25, 0⟩], true) ∧
    irc_color_to_termbox (decodeColor 48 50) = 17 ∧ (25 : Nat) ≠ 17 := by
  refine ⟨?_, ?_, by decide, by decide⟩
  · simp +decide [add_text_eq_nil, add_text_eq_color_other,
      add_other_eq_vis, pushRaw, pushVis, Line.new, isWhitespace]
  · show draw_go [] 2 0 0 0 10
      [colorMarker, 48, 52, 97, colorMarker, 48, 50, 98] 0 0 0 0 0 0 =
      ([⟨0, 0, 97, 9, 0⟩, ⟨1, 0, 98, 25, 0⟩], true)
    rw [draw_go_eq_color_other _ _ _ _ _ _ _ _ _ _ _ _ _ _ _ _ (by decide)]
    rw [draw_other_eq_vis_emit _ _ _ _ _ _ _ _ _ _ _ _ _ _ (by decide)
      (by decide) (by decide) (by decide) (by decide)]
    rw [draw_go_eq_color_other _ _ _ _ _ _ _ _ _ _ _ _ _ _ _ _ (by decide)]
    rw [draw_other_eq_vis_emit _ _ _ _ _ _ _ _ _ _ _ _ _ _ (by decide)
      (by decide) (by decide) (by decide) (by decide)]
    rw [draw_go_eq_nil]
    norm_num [decodeColor, to_dec, i8_as_u16, irc_color_to_termbox]
    decide

/-- C5 (amended): across complete directive units, `draw_from` maintains
the style state by: ORing the palette-mapped foreground code into the
foreground and setting the background from the mapped background code
(color directive with comma form); setting both directly from the raw
codes truncated to 16 bits (native directive); ORing the bold bit into
the foreground (bold); zeroing both (reset). When the comma form is
absent, the foreground code is still ORed in and the background is set
to 0. The first emitted visible cell carries exactly the folded style. -/
theorem claim_c5_amended :
    (∀ (ds : List StyleDir) (c : Nat) (px py w : Int),
      ¬c = colorMarker → ¬c = termboxMarker → ¬c = boldMarker →
      ¬c = resetMarker → ¬isWhitespace c = true → 1 ≤ w →
      draw_from ⟨encodeDirs ds ++ [c], 1, []⟩ px py 0 w =
        ([⟨px, py, c, (applyDirs (0, 0) ds).1, (applyDirs (0, 0) ds).2⟩],
          true)) ∧
    (∀ (ds : List StyleDir) (d1 d2 c : Nat) (px py w : Int),
      ¬c = commaChar → ¬c = termboxMarker → ¬c = boldMarker →
      ¬c = resetMarker → ¬isWhitespace c = true → 1 ≤ w →
      draw_from ⟨encodeDirs ds ++ [colorMarker, d1, d2, c], 1, []⟩ px py 0
        w =
        ([⟨px, py, c,
            (applyDirs (0, 0) ds).1 |||
              irc_color_to_termbox (decodeColor d1 d2), 0⟩], true)) := by
  constructor
  · intro ds c px py w hC hT hB hR hws hw
    show draw_go [] 1 px py 0 w (encodeDirs ds ++ [c]) px 0 0 0 0 0 = _
    rw [draw_go_dirs]
    rw [draw_go_eq_other _ _ _ _ _ _ _ _ _ _ _ _ _ _ hC]
    rw [draw_other_eq_vis_emit _ _ _ _ _ _ _ _ _ _ _ _ _ _ hT hB hR hws
      (by omega)]
    rw [draw_go_eq_nil]
    simp
  · intro ds d1 d2 c px py w hC hT hB hR hws hw
    show draw_go [] 1 px py 0 w
      (encodeDirs ds ++ [colorMarker, d1, d2, c]) px 0 0 0 0 0 = _
    rw [draw_go_dirs]
    rw [draw_go_eq_color_other _ _ _ _ _ _ _ _ _ _ _ _ _ _ _ _ hC]
    rw [draw_other_eq_vis_emit _ _ _ _ _ _ _ _ _ _ _ _ _ _ hT hB hR hws
      (by omega)]
    rw [draw_go_eq_nil]
    simp

/-- C5 (witness): the amended theorem at the concrete inputs: a bold
directive followed by the visible character `'a'`, and a bold directive
followed by a comma-less color directive and `'b'`. -/
theorem claim_c5_witness :
    (¬(97 : Nat) = colorMarker ∧ ¬(97 : Nat) = termboxMarker ∧
      ¬(97 : Nat) = boldMarker ∧ ¬(97 : Nat) = resetMarker ∧
      ¬isWhitespace 97 = true ∧ (1 : Int) ≤ 3 ∧
      draw_from ⟨encodeDirs [.bold] ++ [97], 1, []⟩ 2 5 0 3 =
        ([⟨2, 5, 97, (applyDirs (0, 0) [.bold]).1,
            (applyDirs (0, 0) [.bold]).2⟩], true)) ∧
    (¬(98 : Nat) = commaChar ∧
      draw_from ⟨encodeDirs [.bold] ++ [colorMarker, 48, 50, 98], 1, []⟩
        2 5 0 3 =
        ([⟨2, 5, 98,
            (applyDirs (0, 0) [.bold]).1 |||
              irc_color_to_termbox (decodeColor 48 50), 0⟩], true)) := by
  refine ⟨⟨by decide, by decide, by decide, by decide, by decide, by decide,
    ?_⟩, by decide, ?_⟩
  · exact claim_c5_amended.1 [.bold] 97 2 5 3 (by decide) (by decide)
      (by decide) (by decide) (by decide) (by decide)
  · exact claim_c5_amended.2 [.bold] 48 50 98 2 5 3 (by decide) (by decide)
      (by decide) (by decide) (by decide) (by decide)

/-- C8 (counterexample): the `visible_length` invariant fails for a line
built by two completed `append_text` calls: a color directive truncated at
the comma boundary followed by input starting with a comma makes the
re-parse swallow the comma and two visible characters as the background
part, so `len_chars = 3` while the buffer holds zero non-directive
characters. -/
theorem claim_c8_counterexample :
    add_text Line.new [colorMarker, 49, 50] =
      some ⟨[colorMarker, 49, 50], 0, []⟩ ∧
    add_text ⟨[colorMarker, 49, 50], 0, []⟩ [commaChar, 97, 98] =
      some ⟨[colorMarker, 49, 50, commaChar, 97, 98], 3, []⟩ ∧
    parseVis [colorMarker, 49, 50, commaChar, 97, 98] = some [] ∧
    (3 : Int) ≠ 0 := by
  refine ⟨add_text_eq_color_end Line.new 49 50, ?_, ?_, by decide⟩
  · simp +decide [add_text_eq_nil, add_text_eq_other, add_other_eq_vis,
      pushVis, isWhitespace]
  · rw [parseVis_eq_color_comma, parseVis_eq_nil]

/-- C8 (amended): after every sequence of completed, precondition
respecting append operations from a new line, the split list is strictly
increasing, nonnegative and strictly below `visible_length` (and
`visible_length` is nonnegative); the further identity between
`visible_length` and the count of non-directive buffer characters can
fail, as the counterexample shows. -/
theorem claim_c8_amended (l : Line) (hr : Reach l) :
    List.Pairwise (· < ·) l.splits ∧
    (∀ v ∈ l.splits, 0 ≤ v ∧ v < l.len_chars) ∧ 0 ≤ l.len_chars :=
  reach_splitsInv l hr

/-- C8 (witness): the invariant at the concrete reachable line for
`"a b"`. -/
theorem claim_c8_witness :
    Reach ⟨[97, 32, 98], 3, [1]⟩ ∧
    (List.Pairwise (· < ·) (⟨[97, 32, 98], 3, [1]⟩ : Line).splits ∧
      (∀ v ∈ (⟨[97, 32, 98], 3, [1]⟩ : Line).splits,
        0 ≤ v ∧ v < (⟨[97, 32, 98], 3, [1]⟩ : Line).len_chars) ∧
      0 ≤ (⟨[97, 32, 98], 3, [1]⟩ : Line).len_chars) := by
  have ht : add_text Line.new [97, 32, 98] = some ⟨[97, 32, 98], 3, [1]⟩ := by
    simp +decide [add_text_eq_nil, add_text_eq_other, add_other_eq_vis,
      pushVis, Line.new, isWhitespace]
  have hr : Reach (⟨[97, 32, 98], 3, [1]⟩ : Line) := Reach.text Reach.new ht
  exact ⟨hr, claim_c8_amended _ hr⟩

end TinyLine
